import Mathlib

set_option maxHeartbeats 1000000

/- Verification development for the gotui terminal-UI core.
   Definitions are shallow embeddings of the Go sources:
   the terminal escape-code layer (ANSI constants, colors, styles),
   screen/cell.go, screen/buffer.go, screen/screen.go,
   input/keys.go, input/events.go and input/input.go. -/

namespace terminal

/-- Escape-sequence start, `ESC = "\x1b"` (terminal ANSI constants). -/
def ESC : String := "\x1b"

/-- Control Sequence Introducer, `CSI = ESC + "["`. -/
def CSI : String := ESC ++ "["

/-- Cursor-home escape sequence, `CursorHome = CSI + "H"`. -/
def CursorHome : String := CSI ++ "H"

/-- Style reset sequence, `StyleReset = CSI + "0m"`. -/
def StyleReset : String := CSI ++ "0m"

/-- Bold attribute sequence. -/
def StyleBold : String := CSI ++ "1m"

/-- Dim attribute sequence. -/
def StyleDim : String := CSI ++ "2m"

/-- Italic attribute sequence. -/
def StyleItalic : String := CSI ++ "3m"

/-- Underline attribute sequence. -/
def StyleUnderline : String := CSI ++ "4m"

/-- Blink attribute sequence. -/
def StyleBlink : String := CSI ++ "5m"

/-- Reverse-video attribute sequence. -/
def StyleReverse : String := CSI ++ "7m"

/-- Strikethrough attribute sequence. -/
def StyleStrike : String := CSI ++ "9m"

/-- CursorMove returns the escape sequence moving the cursor to (x, y), 1-indexed:
`fmt.Sprintf("%s%d;%dH", CSI, y, x)`. -/
def CursorMove (x y : Int) : String := CSI ++ toString y ++ ";" ++ toString x ++ "H"

/-- Color is the Go `Color` interface together with its three concrete
implementations: `BasicColor` (uint8, with 255 the terminal-default sentinel),
`Color256` and `RGB`.  Go interface equality (same dynamic type and equal
value) is constructor-wise equality here. -/
inductive Color where
  | basic (c : Nat)
  | indexed (c : Nat)
  | rgb (r g b : Nat)
deriving DecidableEq

/-- ColorDefault sentinel for BasicColor (`const ColorDefault BasicColor = 255`). -/
def ColorDefault : Nat := 255

/-- FG serializes a color as a foreground escape sequence (colors.go `FG()`). -/
def Color.FG : Color → String
  | .basic c =>
      if c = ColorDefault then CSI ++ "39m"
      else if c < 8 then CSI ++ toString (30 + c) ++ "m"
      else CSI ++ toString (90 + (c - 8)) ++ "m"
  | .indexed c => CSI ++ "38;5;" ++ toString c ++ "m"
  | .rgb r g b => CSI ++ "38;2;" ++ toString r ++ ";" ++ toString g ++ ";" ++ toString b ++ "m"

/-- BG serializes a color as a background escape sequence (colors.go `BG()`). -/
def Color.BG : Color → String
  | .basic c =>
      if c = ColorDefault then CSI ++ "49m"
      else if c < 8 then CSI ++ toString (40 + c) ++ "m"
      else CSI ++ toString (100 + (c - 8)) ++ "m"
  | .indexed c => CSI ++ "48;5;" ++ toString c ++ "m"
  | .rgb r g b => CSI ++ "48;2;" ++ toString r ++ ";" ++ toString g ++ ";" ++ toString b ++ "m"

/-- Style mirrors the Go struct: optional foreground/background colors
(Go interface fields that may be nil) and seven boolean attributes. -/
structure Style where
  FG : Option Color
  BG : Option Color
  Bold : Bool
  Dim : Bool
  Italic : Bool
  Underline : Bool
  Blink : Bool
  Reverse : Bool
  Strike : Bool
deriving DecidableEq

/-- ZeroStyle is the Go zero value `terminal.Style{}`: nil colors, all flags false
(the initial `lastStyle` of a render pass). -/
def ZeroStyle : Style := ⟨none, none, false, false, false, false, false, false, false⟩

/-- DefaultStyle returns default colors and no attributes. -/
def DefaultStyle : Style :=
  { ZeroStyle with FG := some (.basic ColorDefault), BG := some (.basic ColorDefault) }

/-- Sequence builds the complete ANSI sequence for a style, in source order:
reset, FG if non-nil, BG if non-nil, then each attribute flag. -/
def Style.Sequence (s : Style) : String :=
  let result := StyleReset
  let result := match s.FG with | some c => result ++ c.FG | none => result
  let result := match s.BG with | some c => result ++ c.BG | none => result
  let result := if s.Bold then result ++ StyleBold else result
  let result := if s.Dim then result ++ StyleDim else result
  let result := if s.Italic then result ++ StyleItalic else result
  let result := if s.Underline then result ++ StyleUnderline else result
  let result := if s.Blink then result ++ StyleBlink else result
  let result := if s.Reverse then result ++ StyleReverse else result
  let result := if s.Strike then result ++ StyleStrike else result
  result

/-- Equals is the field-wise equality check from colors.go. -/
def Style.Equals (s other : Style) : Bool :=
  s.FG == other.FG && s.BG == other.BG && s.Bold == other.Bold && s.Dim == other.Dim &&
  s.Italic == other.Italic && s.Underline == other.Underline && s.Blink == other.Blink &&
  s.Reverse == other.Reverse && s.Strike == other.Strike

end terminal

namespace screen

open terminal

/-- Cell is one character cell: a code point plus a style (cell.go). -/
structure Cell where
  Rune : Char
  Style : terminal.Style
deriving DecidableEq

/-- NewCell builds a cell from a rune and a style. -/
def NewCell (r : Char) (style : terminal.Style) : Cell := ⟨r, style⟩

/-- EmptyCell is a space with the default style. -/
def EmptyCell : Cell := ⟨' ', DefaultStyle⟩

/-- Equals checks both components (cell.go). -/
def Cell.Equals (c other : Cell) : Bool :=
  c.Rune == other.Rune && c.Style.Equals other.Style

/-- IsEmpty holds for a space with the default style. -/
def Cell.IsEmpty (c : Cell) : Bool :=
  c.Rune == ' ' && c.Style.Equals DefaultStyle

/-- Buffer is the 3D cell grid of buffer.go, `cells[z][y][x]`.  The dense Go
array is modeled by its indexing function; every in-range access in the source
goes through exactly this indexing. -/
structure Buffer where
  cells : Nat → Nat → Nat → Cell
  width : Nat
  height : Nat
  depth : Nat

/-- NewBuffer allocates a buffer with every cell initialized to EmptyCell. -/
def NewBuffer (width height depth : Nat) : Buffer :=
  ⟨fun _ _ _ => EmptyCell, width, height, depth⟩

/-- Get returns the cell at (x, y, z), or EmptyCell out of range (buffer.go). -/
def Buffer.Get (b : Buffer) (x y z : Int) : Cell :=
  if x < 0 ∨ x ≥ (b.width : Int) ∨ y < 0 ∨ y ≥ (b.height : Int) ∨ z < 0 ∨ z ≥ (b.depth : Int) then
    EmptyCell
  else
    b.cells z.toNat y.toNat x.toNat

/-- Set writes the cell at (x, y, z); out-of-range writes are silently ignored. -/
def Buffer.Set (b : Buffer) (x y z : Int) (cell : Cell) : Buffer :=
  if x < 0 ∨ x ≥ (b.width : Int) ∨ y < 0 ∨ y ≥ (b.height : Int) ∨ z < 0 ∨ z ≥ (b.depth : Int) then
    b
  else
    { b with cells := fun z2 y2 x2 =>
        if z2 = z.toNat ∧ y2 = y.toNat ∧ x2 = x.toNat then cell else b.cells z2 y2 x2 }

/-- Helper loop of DrawString: Go `for i, r := range s` ranges over the code
points of `s` but `i` is the BYTE offset of each code point in the UTF-8
encoding, so the running offset advances by `utf8Size` of each character. -/
def drawStringAux (b : Buffer) (x y z : Int) (style : terminal.Style) :
    List Char → Nat → Buffer
  | [], _ => b
  | c :: cs, i =>
      drawStringAux (b.Set (x + (i : Int)) y z (NewCell c style)) x y z style cs (i + c.utf8Size)

/-- DrawString draws a string starting at x (buffer.go). -/
def Buffer.DrawString (b : Buffer) (x y z : Int) (s : String) (style : terminal.Style) : Buffer :=
  drawStringAux b x y z style s.data 0

/-- Helper loop of DrawStringClipped: here `i` is a plain counter incremented
by one per code point, and the loop stops once `i >= maxWidth`. -/
def drawStringClippedAux (b : Buffer) (x y z : Int) (style : terminal.Style) (maxWidth : Int) :
    List Char → Nat → Buffer
  | [], _ => b
  | c :: cs, i =>
      if (i : Int) ≥ maxWidth then b
      else drawStringClippedAux (b.Set (x + (i : Int)) y z (NewCell c style)) x y z style maxWidth
        cs (i + 1)

/-- DrawStringClipped draws a string clipped to a maximum width (buffer.go). -/
def Buffer.DrawStringClipped (b : Buffer) (x y z : Int) (s : String)
    (style : terminal.Style) (maxWidth : Int) : Buffer :=
  drawStringClippedAux b x y z style maxWidth s.data 0

/-- Flatten composites all z-layers into a 2D image (buffer.go): each output
cell starts empty and every non-empty cell from z = 0 upward overwrites it. -/
def Buffer.Flatten (b : Buffer) : List (List Cell) :=
  (List.range b.height).map fun y =>
    (List.range b.width).map fun x =>
      (List.range b.depth).foldl
        (fun acc z => if (b.cells z y x).IsEmpty then acc else b.cells z y x) EmptyCell

/-- FlattenM is Flatten in explicit state-passing form: the buffer is threaded
through the row loop unchanged (no statement of the Go body assigns to the
buffer), returning the image together with the post-call buffer. -/
def Buffer.FlattenM (b : Buffer) : List (List Cell) × Buffer :=
  (List.range b.height).foldl
    (fun st y =>
      (st.1 ++ [(List.range st.2.width).map fun x =>
         (List.range st.2.depth).foldl
           (fun acc z => if (st.2.cells z y x).IsEmpty then acc else st.2.cells z y x) EmptyCell],
       st.2))
    ([], b)

end screen

namespace screen

open terminal

/-- Screen holds the double-buffering state of screen.go: the flattened front
image (what is believed on screen, modeled by its indexing function over
row, column) and the 3D back buffer, with the cached terminal dimensions.
The output string builder is modeled by the string Render returns. -/
structure Screen where
  front : Nat → Nat → Cell
  back : Buffer
  width : Nat
  height : Nat

/-- Row-major list of (y, x) coordinates walked by Render's nested loops. -/
def coords (height width : Nat) : List (Nat × Nat) :=
  ((List.range height).map fun y => (List.range width).map fun x => (y, x)).flatten

/-- RenderSt is the per-frame loop state of Render: the accumulated output,
`lastStyle`, `styleSet`, and the last written position (initially -1, -1). -/
structure RenderSt where
  out : String
  lastStyle : terminal.Style
  styleSet : Bool
  lastX : Int
  lastY : Int

/-- Initial loop state of a Render pass: empty output, zero-value `lastStyle`,
`styleSet` false and last position (-1, -1). -/
def renderInit : RenderSt := ⟨"", ZeroStyle, false, -1, -1⟩

/-- Loop body of Render for one cell at (y, x): skip if unchanged; otherwise
emit a cursor move unless this cell is exactly one column past the last
written cell on the same row, emit the style sequence if no style was set
this frame or the style changed, then emit the character. -/
def renderCell (flat front : Nat → Nat → Cell) (st : RenderSt) (p : Nat × Nat) : RenderSt :=
  let y := p.1
  let x := p.2
  let backCell := flat y x
  let frontCell := front y x
  if backCell.Equals frontCell then st
  else
    let st1 :=
      if (x : Int) ≠ st.lastX + 1 ∨ (y : Int) ≠ st.lastY then
        { st with out := st.out ++ CursorMove ((x : Int) + 1) ((y : Int) + 1) }
      else st
    let st2 :=
      if st1.styleSet = false ∨ backCell.Style.Equals st1.lastStyle = false then
        { st1 with out := st1.out ++ backCell.Style.Sequence,
                   lastStyle := backCell.Style, styleSet := true }
      else st1
    { st2 with out := st2.out.push backCell.Rune, lastX := (x : Int), lastY := (y : Int) }

/-- Cell of the flattened back buffer read the way Render indexes it,
`flattened[y][x]`. -/
def Screen.flatAt (s : Screen) (y x : Nat) : Cell :=
  ((s.back.Flatten).getD y []).getD x EmptyCell

/-- Render walks the flattened back buffer against the front image in
row-major order, accumulating escape output; after the scan it appends a
style reset if any style was emitted, and copies the flattened image into
the front.  It returns the emitted byte stream (empty means nothing is
written to the terminal) together with the updated screen. -/
def Screen.render (s : Screen) : String × Screen :=
  let flattened := s.back.Flatten
  let stF := (coords s.height s.width).foldl (renderCell s.flatAt s.front) renderInit
  let out := if stF.styleSet then stF.out ++ StyleReset else stF.out
  (out, { s with front := fun y x => (flattened.getD y []).getD x (s.front y x) })

/-- Number of cells at which the flattened back buffer differs from the
front image (the cells Render must rewrite). -/
def Screen.changedCount (s : Screen) : Nat :=
  (coords s.height s.width).countP fun p => !((s.flatAt p.1 p.2).Equals (s.front p.1 p.2))

/-- Worst-case output emitted for one changed cell at (y, x): its cursor-move
sequence, its style sequence, and one character. -/
def cellEmit (s : Screen) (p : Nat × Nat) : Nat :=
  (CursorMove ((p.2 : Int) + 1) ((p.1 : Int) + 1)).length +
    ((s.flatAt p.1 p.2).Style.Sequence).length + 1

/-- Maximum per-cell emission over the whole screen. -/
def Screen.maxCellEmit (s : Screen) : Nat :=
  (coords s.height s.width).foldl (fun m p => max m (cellEmit s p)) 0

end screen

namespace input

/-- Key codes from keys.go (`Key int`, consecutive iota constants). -/
def KeyNone : Nat := 0

/-- Enter key code. -/
def KeyEnter : Nat := 1

/-- Tab key code. -/
def KeyTab : Nat := 2

/-- Backspace key code. -/
def KeyBackspace : Nat := 3

/-- Escape key code. -/
def KeyEscape : Nat := 4

/-- Space key code. -/
def KeySpace : Nat := 5

/-- Delete key code. -/
def KeyDelete : Nat := 6

/-- Up-arrow key code. -/
def KeyUp : Nat := 7

/-- Down-arrow key code. -/
def KeyDown : Nat := 8

/-- Left-arrow key code. -/
def KeyLeft : Nat := 9

/-- Right-arrow key code. -/
def KeyRight : Nat := 10

/-- Home key code. -/
def KeyHome : Nat := 11

/-- End key code. -/
def KeyEnd : Nat := 12

/-- PageUp key code. -/
def KeyPageUp : Nat := 13

/-- PageDown key code. -/
def KeyPageDown : Nat := 14

/-- Insert key code. -/
def KeyInsert : Nat := 15

/-- F1 key code (F2..F12 are the 11 codes after it). -/
def KeyF1 : Nat := 16

/-- F2 key code. -/
def KeyF2 : Nat := 17

/-- F3 key code. -/
def KeyF3 : Nat := 18

/-- F4 key code. -/
def KeyF4 : Nat := 19

/-- F5 key code. -/
def KeyF5 : Nat := 20

/-- F6 key code. -/
def KeyF6 : Nat := 21

/-- F7 key code. -/
def KeyF7 : Nat := 22

/-- F8 key code. -/
def KeyF8 : Nat := 23

/-- F9 key code. -/
def KeyF9 : Nat := 24

/-- F10 key code. -/
def KeyF10 : Nat := 25

/-- F11 key code. -/
def KeyF11 : Nat := 26

/-- F12 key code. -/
def KeyF12 : Nat := 27

/-- Rune key code (a regular character key). -/
def KeyRune : Nat := 28

/-- Modifier bits from keys.go.  Note the Go declaration
`ModNone Modifier = 0` then `ModShift Modifier = 1 << iota` with iota already
at 1, so ModShift = 2, ModAlt = 4, ModCtrl = 8, ModMeta = 16. -/
def ModNone : Nat := 0

/-- Shift modifier bit (value 2, see ModNone). -/
def ModShift : Nat := 2

/-- Alt modifier bit. -/
def ModAlt : Nat := 4

/-- Ctrl modifier bit. -/
def ModCtrl : Nat := 8

/-- Meta modifier bit. -/
def ModMeta : Nat := 16

/-- Event models the events the parsing functions of input.go produce.  The
parser emits only KeyEvents (key code, rune, modifier bitset); resize, mouse,
error and quit events come from other parts of the reader and never from
`parseSequence`, so they are not needed here. -/
inductive Event where
  | key (k : Nat) (r : Nat) (m : Nat)
deriving DecidableEq

/-- decodeModifier decodes the xterm modifier encoding: for n at most 1 no
modifier, otherwise (n-1) is a bitmask with bit0 Shift, bit1 Alt, bit2 Ctrl. -/
def decodeModifier (n : Nat) : Nat :=
  if n ≤ 1 then ModNone
  else
    let m := n - 1
    let mod := ModNone
    let mod := if m &&& 1 ≠ 0 then mod ||| ModShift else mod
    let mod := if m &&& 2 ≠ 0 then mod ||| ModAlt else mod
    let mod := if m &&& 4 ≠ 0 then mod ||| ModCtrl else mod
    mod

/-- Decimal-accumulation loop shared by the modifier parsing in input.go:
fold the digits of a byte list, skipping non-digit bytes. -/
def digitsVal (l : List Nat) : Nat :=
  l.foldl (fun a c => if 0x30 ≤ c ∧ c ≤ 0x39 then a * 10 + (c - 0x30) else a) 0

/-- parseCSIModifier scans params for the first `;` that has at least one byte
after it and decodes the digits after it; ModNone if no such `;` exists. -/
def parseCSIModifier : List Nat → Nat
  | [] => ModNone
  | b :: rest =>
      if b = 0x3b ∧ rest ≠ [] then decodeModifier (digitsVal rest)
      else parseCSIModifier rest

/-- First loop of parseTildeSequence: accumulate the decimal number before the
first `;` (skipping non-digits) and return the bytes after that `;` when
one is present. -/
def tildeSplit : List Nat → Nat → Nat × Option (List Nat)
  | [], n => (n, none)
  | b :: rest, n =>
      if b = 0x3b then (n, some rest)
      else if 0x30 ≤ b ∧ b ≤ 0x39 then tildeSplit rest (n * 10 + (b - 0x30))
      else tildeSplit rest n

/-- parseTildeSequence decodes `CSI n ~` sequences via the fixed numeric
lookup table, with an optional `;modifier` suffix. -/
def parseTildeSequence (params : List Nat) : Event :=
  let nSemi := tildeSplit params 0
  let n := nSemi.1
  let mod := match nSemi.2 with
    | some rest => decodeModifier (digitsVal rest)
    | none => ModNone
  if n = 1 then .key KeyHome 0 mod
  else if n = 2 then .key KeyInsert 0 mod
  else if n = 3 then .key KeyDelete 0 mod
  else if n = 4 then .key KeyEnd 0 mod
  else if n = 5 then .key KeyPageUp 0 mod
  else if n = 6 then .key KeyPageDown 0 mod
  else if n = 7 then .key KeyHome 0 mod
  else if n = 8 then .key KeyEnd 0 mod
  else if n = 11 then .key KeyF1 0 mod
  else if n = 12 then .key KeyF2 0 mod
  else if n = 13 then .key KeyF3 0 mod
  else if n = 14 then .key KeyF4 0 mod
  else if n = 15 then .key KeyF5 0 mod
  else if n = 17 then .key KeyF6 0 mod
  else if n = 18 then .key KeyF7 0 mod
  else if n = 19 then .key KeyF8 0 mod
  else if n = 20 then .key KeyF9 0 mod
  else if n = 21 then .key KeyF10 0 mod
  else if n = 23 then .key KeyF11 0 mod
  else if n = 24 then .key KeyF12 0 mod
  else .key KeyEscape 0 ModNone

/-- Final-byte switch of parseCSI, applied to the collected parameter bytes,
the scan position `i` of the final byte, and the final byte itself:
arrows/Home/End carry an optional modifier, `~` dispatches to the tilde
table, `Z` is Shift+Tab, P-S are F1-F4, anything else falls back to Escape
with a single byte consumed. -/
def csiDispatch (params : List Nat) (i : Nat) (finalByte : Nat) : Option Event × Nat :=
  if finalByte = 0x41 then (some (.key KeyUp 0 (parseCSIModifier params)), i + 1)
  else if finalByte = 0x42 then (some (.key KeyDown 0 (parseCSIModifier params)), i + 1)
  else if finalByte = 0x43 then (some (.key KeyRight 0 (parseCSIModifier params)), i + 1)
  else if finalByte = 0x44 then (some (.key KeyLeft 0 (parseCSIModifier params)), i + 1)
  else if finalByte = 0x48 then (some (.key KeyHome 0 (parseCSIModifier params)), i + 1)
  else if finalByte = 0x46 then (some (.key KeyEnd 0 (parseCSIModifier params)), i + 1)
  else if finalByte = 0x7e then (some (parseTildeSequence params), i + 1)
  else if finalByte = 0x5a then (some (.key KeyTab 0 ModShift), i + 1)
  else if 0x50 ≤ finalByte ∧ finalByte ≤ 0x53 then
    (some (.key (KeyF1 + (finalByte - 0x50)) 0 ModNone), i + 1)
  else (some (.key KeyEscape 0 ModNone), 1)

/-- parseCSI parses `ESC [` sequences: scan parameter bytes (0x30-0x3f), then
intermediate bytes (0x20-0x2f), then decode the final byte; unrecognized
finals fall back to Escape with one byte consumed. -/
def parseCSI (data : List Nat) : Option Event × Nat :=
  if data.length < 3 then (some (.key KeyEscape 0 ModNone), 1)
  else
    let rest0 := data.drop 2
    let p1 := rest0.takeWhile fun b => decide (0x30 ≤ b ∧ b ≤ 0x3f)
    let rest1 := rest0.dropWhile fun b => decide (0x30 ≤ b ∧ b ≤ 0x3f)
    let p2 := rest1.takeWhile fun b => decide (0x20 ≤ b ∧ b ≤ 0x2f)
    let rest2 := rest1.dropWhile fun b => decide (0x20 ≤ b ∧ b ≤ 0x2f)
    match rest2 with
    | [] => (some (.key KeyEscape 0 ModNone), 1)
    | finalByte :: _ => csiDispatch (p1 ++ p2) (2 + p1.length + p2.length) finalByte

/-- parseSS3 parses `ESC O` sequences: the third byte maps to arrows,
Home/End or F1-F4; anything else falls back to Escape, one byte consumed. -/
def parseSS3 (data : List Nat) : Option Event × Nat :=
  if data.length < 3 then (some (.key KeyEscape 0 ModNone), 1)
  else
    let c := data.getD 2 0
    if c = 0x41 then (some (.key KeyUp 0 ModNone), 3)
    else if c = 0x42 then (some (.key KeyDown 0 ModNone), 3)
    else if c = 0x43 then (some (.key KeyRight 0 ModNone), 3)
    else if c = 0x44 then (some (.key KeyLeft 0 ModNone), 3)
    else if c = 0x48 then (some (.key KeyHome 0 ModNone), 3)
    else if c = 0x46 then (some (.key KeyEnd 0 ModNone), 3)
    else if c = 0x50 then (some (.key KeyF1 0 ModNone), 3)
    else if c = 0x51 then (some (.key KeyF2 0 ModNone), 3)
    else if c = 0x52 then (some (.key KeyF3 0 ModNone), 3)
    else if c = 0x53 then (some (.key KeyF4 0 ModNone), 3)
    else (some (.key KeyEscape 0 ModNone), 1)

/-- parseControl maps control bytes: NUL to Ctrl+Space, 0x09 Tab, 0x0a/0x0d
Enter, 0x1b Escape, 0x7f Backspace, 1..26 to Ctrl+letter, otherwise KeyNone. -/
def parseControl (b : Nat) : Event :=
  if b = 0x00 then .key KeySpace 0 ModCtrl
  else if b = 0x09 then .key KeyTab 0 ModNone
  else if b = 0x0a ∨ b = 0x0d then .key KeyEnter 0 ModNone
  else if b = 0x1b then .key KeyEscape 0 ModNone
  else if b = 0x7f then .key KeyBackspace 0 ModNone
  else if 1 ≤ b ∧ b ≤ 26 then .key KeyRune (97 + b - 1) ModCtrl
  else .key KeyNone 0 ModNone

/-- UTF-8 byte length chosen by parseRune's switch on the leading byte:
below 0x80 one byte, below 0xe0 two, below 0xf0 three, otherwise four. -/
def utf8Len (b : Nat) : Nat :=
  if b < 0x80 then 1
  else if b < 0xe0 then 2
  else if b < 0xf0 then 3
  else 4

/-- parseRune decodes a UTF-8 rune: if fewer bytes are available than the
leading byte requires, emit the leading byte alone as a one-byte rune;
otherwise combine the continuation payloads. -/
def parseRune (data : List Nat) : Option Event × Nat :=
  match data with
  | [] => (none, 0)
  | b :: rest =>
      let runeLen := utf8Len b
      if data.length < runeLen then (some (.key KeyRune b ModNone), 1)
      else
        let r2 : Nat :=
          if runeLen = 1 then b
          else if runeLen = 2 then (b &&& 0x1f) <<< 6 ||| (rest.getD 0 0 &&& 0x3f)
          else if runeLen = 3 then
            (b &&& 0x0f) <<< 12 ||| (rest.getD 0 0 &&& 0x3f) <<< 6 ||| (rest.getD 1 0 &&& 0x3f)
          else
            (b &&& 0x07) <<< 18 ||| (rest.getD 0 0 &&& 0x3f) <<< 12 |||
              (rest.getD 1 0 &&& 0x3f) <<< 6 ||| (rest.getD 2 0 &&& 0x3f)
        (some (.key KeyRune r2 ModNone), runeLen)

mutual

/-- parseSequence parses one escape sequence or single key from the front of
the buffer, returning the event (if any) and the byte count consumed. -/
def parseSequence : List Nat → Option Event × Nat
  | [] => (none, 0)
  | b :: rest =>
      if b = 0x1b then parseEscape (b :: rest)
      else if b < 32 then (some (parseControl b), 1)
      else if b = 127 then (some (.key KeyBackspace 0 ModNone), 1)
      else parseRune (b :: rest)
termination_by data => (data.length, 1)

/-- parseEscape parses sequences starting with ESC: a lone ESC is the Escape
key; `ESC [` is CSI, `ESC O` is SS3; any other following byte is decoded
recursively and gets the Alt modifier OR'd in. -/
def parseEscape : List Nat → Option Event × Nat
  | [] => (some (.key KeyEscape 0 ModNone), 1)
  | [_] => (some (.key KeyEscape 0 ModNone), 1)
  | b :: b2 :: rest =>
      if b2 = 0x5b then parseCSI (b :: b2 :: rest)
      else if b2 = 0x4f then parseSS3 (b :: b2 :: rest)
      else
        match parseSequence (b2 :: rest) with
        | (some (.key k r m), consumed) => (some (.key k r (m ||| ModAlt)), consumed + 1)
        | (ev, consumed) => (ev, consumed + 1)
termination_by data => (data.length, 0)

end

/-- parseInput is the decoder loop: repeatedly parse one sequence, force a
zero consumed-count to one, and advance; returns the emitted events. -/
def parseInput (data : List Nat) : List Event :=
  match h : data with
  | [] => []
  | _ :: _ =>
      let ec := parseSequence data
      let consumed := if ec.2 = 0 then 1 else ec.2
      (match ec.1 with | some e => [e] | none => []) ++ parseInput (data.drop consumed)
termination_by data.length
decreasing_by
  simp only [h, List.length_drop, List.length_cons]
  split <;> omega

/-- parseConsumedCounts instruments the parseInput loop: the per-iteration
consumed-byte counts, in order. -/
def parseConsumedCounts (data : List Nat) : List Nat :=
  match h : data with
  | [] => []
  | _ :: _ =>
      let ec := parseSequence data
      let consumed := if ec.2 = 0 then 1 else ec.2
      consumed :: parseConsumedCounts (data.drop consumed)
termination_by data.length
decreasing_by
  simp only [h, List.length_drop, List.length_cons]
  split <;> omega

end input

namespace screen

open terminal

/-- Concrete buffer used by witnesses below. -/
def bufW : Buffer := NewBuffer 2 2 1

/-- Concrete layered buffer for the C1 witness: 'a' at z = 0 and 'b' at z = 1
of the single column of a 1 by 1 by 2 buffer. -/
def bufLayers : Buffer :=
  ((NewBuffer 1 1 2).Set 0 0 0 (NewCell 'a' DefaultStyle)).Set 0 0 1 (NewCell 'b' DefaultStyle)

/-- Concrete screen for witnesses: a 1 by 1 screen whose back buffer and
front image are both empty. -/
def scrEmpty : Screen := ⟨fun _ _ => EmptyCell, NewBuffer 1 1 1, 1, 1⟩

/-- Concrete screen for witnesses: a 1 by 1 screen with an empty front image
and an 'a' drawn at (0, 0, 0) of the back buffer. -/
def scrOne : Screen :=
  ⟨fun _ _ => EmptyCell, (NewBuffer 1 1 1).Set 0 0 0 (NewCell 'a' DefaultStyle), 1, 1⟩

end screen

namespace input

/-- ASCII decimal digit bytes of n, most significant first (statement-side
encoding of the `;n` modifier parameter of a CSI sequence). -/
def decDigits (n : Nat) : List Nat :=
  if n < 10 then [0x30 + n] else decDigits (n / 10) ++ [0x30 + n % 10]
decreasing_by exact Nat.div_lt_self (by omega) (by omega)

/-- Statement-side 3-bit modifier mask of the spec: bit0 is Shift, bit1 is
Alt, bit2 is Ctrl. -/
def modMask (m : Nat) : Nat :=
  (if m.testBit 0 then ModShift else 0) ||| (if m.testBit 1 then ModAlt else 0) |||
    (if m.testBit 2 then ModCtrl else 0)

/-- Statement-side table of the modifier-carrying CSI final bytes named by
the claim: A/B/C/D arrows, H Home, F End. -/
def csiFinalKey (fb : Nat) : Nat :=
  if fb = 0x41 then KeyUp
  else if fb = 0x42 then KeyDown
  else if fb = 0x43 then KeyRight
  else if fb = 0x44 then KeyLeft
  else if fb = 0x48 then KeyHome
  else if fb = 0x46 then KeyEnd
  else KeyNone

end input

namespace terminal

/-- Style.Equals agrees with structural equality. -/
theorem style_equals_iff : ∀ s t : Style, Style.Equals s t = true ↔ s = t := by
  rintro ⟨f1, b1, a1, a2, a3, a4, a5, a6, a7⟩ ⟨f2, b2, c1, c2, c3, c4, c5, c6, c7⟩
  simp [Style.Equals, Bool.and_eq_true, beq_iff_eq, and_assoc]

end terminal

namespace screen

open terminal

/-- Cell.Equals agrees with structural equality. -/
theorem cell_equals_iff : ∀ c d : Cell, Cell.Equals c d = true ↔ c = d := by
  rintro ⟨r1, s1⟩ ⟨r2, s2⟩
  simp [Cell.Equals, Bool.and_eq_true, beq_iff_eq, style_equals_iff]

/-- C4: writes at any coordinate outside the buffer box are exact no-ops
(the buffer is returned unchanged, so every in-range cell is unchanged and
nothing faults) and reads there return the empty cell. -/
theorem set_noop_get_empty_out_of_range (b : Buffer) (x y z : Int) (cell : Cell)
    (h : x < 0 ∨ x ≥ (b.width : Int) ∨ y < 0 ∨ y ≥ (b.height : Int) ∨
      z < 0 ∨ z ≥ (b.depth : Int)) :
    b.Set x y z cell = b ∧ b.Get x y z = EmptyCell := by
  constructor <;> simp only [Buffer.Set, Buffer.Get, if_pos h]

/-- Witness for C4 at the concrete coordinate (-1, -1, 0) on a 2 by 2 by 1
buffer. -/
theorem set_noop_get_empty_out_of_range_witness :
    ((-1 : Int) < 0 ∨ (-1 : Int) ≥ (bufW.width : Int) ∨ (-1 : Int) < 0 ∨
        (-1 : Int) ≥ (bufW.height : Int) ∨ (0 : Int) < 0 ∨ (0 : Int) ≥ (bufW.depth : Int)) ∧
      (bufW.Set (-1) (-1) 0 EmptyCell = bufW ∧ bufW.Get (-1) (-1) 0 = EmptyCell) :=
  ⟨Or.inl (by decide),
   set_noop_get_empty_out_of_range bufW (-1) (-1) 0 EmptyCell (Or.inl (by decide))⟩

/-- Compositing fold over a single column: if every layer is empty the fold
stays empty. -/
theorem flatten_fold_all_empty (f : Nat → Cell) (d : Nat)
    (h : ∀ z, z < d → (f z).IsEmpty = true) :
    (List.range d).foldl (fun acc z => if (f z).IsEmpty then acc else f z) EmptyCell =
      EmptyCell := by
  induction d with
  | zero => rfl
  | succ n ih =>
      rw [List.range_succ, List.foldl_append]
      rw [ih fun z hz => h z (Nat.lt_succ_of_lt hz)]
      simp [h n (Nat.lt_succ_self n)]

/-- Compositing fold over a single column: the topmost non-empty layer wins. -/
theorem flatten_fold_topmost (f : Nat → Cell) (d z : Nat) (hz : z < d)
    (hne : (f z).IsEmpty = false)
    (habove : ∀ z2, z < z2 → z2 < d → (f z2).IsEmpty = true) :
    (List.range d).foldl (fun acc z => if (f z).IsEmpty then acc else f z) EmptyCell = f z := by
  induction d with
  | zero => omega
  | succ n ih =>
      rw [List.range_succ, List.foldl_append]
      rcases Nat.lt_succ_iff_lt_or_eq.mp hz with h | h
      · rw [ih h fun z2 h1 h2 => habove z2 h1 (Nat.lt_succ_of_lt h2)]
        simp [habove n h (Nat.lt_succ_self n)]
      · subst h
        simp [hne]

/-- The flattened image at an in-range (x, y) is the compositing fold of that
column. -/
theorem flatten_entry (b : Buffer) (x y : Nat) (hx : x < b.width) (hy : y < b.height) :
    (b.Flatten.getD y []).getD x EmptyCell =
      (List.range b.depth).foldl
        (fun acc z => if (b.cells z y x).IsEmpty then acc else b.cells z y x) EmptyCell := by
  simp [Buffer.Flatten, List.getD, List.getElem?_map, List.getElem?_range, hx, hy]

/-- C1: for every in-range (x, y), the flattened image holds the cell of the
highest z-plane that is non-empty there (lower-z content is overwritten,
empty cells are transparent), and the empty cell if every plane is empty. -/
theorem flatten_topmost_nonempty (b : Buffer) (x y : Nat)
    (hx : x < b.width) (hy : y < b.height) :
    ((∀ z, z < b.depth → (b.cells z y x).IsEmpty = true) →
        (b.Flatten.getD y []).getD x EmptyCell = EmptyCell) ∧
      (∀ z, z < b.depth → (b.cells z y x).IsEmpty = false →
        (∀ z2, z < z2 → z2 < b.depth → (b.cells z2 y x).IsEmpty = true) →
        (b.Flatten.getD y []).getD x EmptyCell = b.cells z y x) := by
  constructor
  · intro h
    rw [flatten_entry b x y hx hy]
    exact flatten_fold_all_empty _ _ h
  · intro z hz hne habove
    rw [flatten_entry b x y hx hy]
    exact flatten_fold_topmost _ _ _ hz hne habove

/-- Witness for C1: in the concrete two-layer buffer the flattened image
shows the z = 1 cell. -/
theorem flatten_topmost_nonempty_witness :
    (0 < bufLayers.width ∧ 0 < bufLayers.height ∧ 1 < bufLayers.depth ∧
        (bufLayers.cells 1 0 0).IsEmpty = false) ∧
      (bufLayers.Flatten.getD 0 []).getD 0 EmptyCell = bufLayers.cells 1 0 0 :=
  ⟨by decide,
   (flatten_topmost_nonempty bufLayers 0 0 (by decide) (by decide)).2 1 (by decide) (by decide)
     (by intro z2 h1 h2
         exfalso
         have hd : bufLayers.depth = 2 := by decide
         omega)⟩

/-- The row loop of FlattenM never writes to the threaded buffer. -/
theorem flattenM_foldl_snd (l : List Nat) :
    ∀ init : List (List Cell) × Buffer,
      (l.foldl
        (fun st y =>
          (st.1 ++ [(List.range st.2.width).map fun x =>
             (List.range st.2.depth).foldl
               (fun acc z => if (st.2.cells z y x).IsEmpty then acc else st.2.cells z y x)
               EmptyCell],
           st.2))
        init).2 = init.2 := by
  induction l with
  | nil => intro init; rfl
  | cons y t ih => intro init; rw [List.foldl_cons, ih]

/-- C9: Flatten is side-effect-free and deterministic.  In state-passing form
the buffer coming out of a Flatten call is the buffer that went in (every
cell unchanged), so a second call on the resulting buffer returns a
structurally equal image. -/
theorem flattenM_pure (b : Buffer) :
    (b.FlattenM).2 = b ∧ ((b.FlattenM).2).FlattenM = b.FlattenM := by
  have h2 : (b.FlattenM).2 = b := flattenM_foldl_snd _ ([], b)
  exact ⟨h2, by rw [h2]⟩

/-- C8: DrawString at the concrete failing input.  Drawing "éa" at x = 0
leaves column 1 empty and writes 'a' at column 2, because the Go loop
`for i, r := range s` advances `i` by the byte length of each code point
(2 for 'é'), not by one column per code point; the clipped variant, whose
loop advances its column counter by exactly one per code point, writes 'a'
at column 1 as the claim requires. -/
theorem drawString_advances_by_byte_offset :
    (((NewBuffer 4 1 1).DrawString 0 0 0 "éa" DefaultStyle).Get 0 0 0 =
        NewCell 'é' DefaultStyle ∧
      ((NewBuffer 4 1 1).DrawString 0 0 0 "éa" DefaultStyle).Get 1 0 0 = EmptyCell ∧
      ((NewBuffer 4 1 1).DrawString 0 0 0 "éa" DefaultStyle).Get 2 0 0 =
        NewCell 'a' DefaultStyle) ∧
    ((NewBuffer 4 1 1).DrawStringClipped 0 0 0 "éa" DefaultStyle 4).Get 1 0 0 =
      NewCell 'a' DefaultStyle := by
  decide

end screen

namespace input

/-- takeWhile over an append whose first part satisfies the predicate. -/
theorem takeWhile_append_of_all {α : Type} (p : α → Bool) (l1 l2 : List α)
    (h : ∀ a ∈ l1, p a = true) :
    (l1 ++ l2).takeWhile p = l1 ++ l2.takeWhile p := by
  induction l1 with
  | nil => rfl
  | cons a t ih =>
      simp only [List.cons_append, List.takeWhile_cons, h a (by simp)]
      rw [ih fun a ha => h a (by simp [ha])]
      simp

/-- dropWhile over an append whose first part satisfies the predicate. -/
theorem dropWhile_append_of_all {α : Type} (p : α → Bool) (l1 l2 : List α)
    (h : ∀ a ∈ l1, p a = true) :
    (l1 ++ l2).dropWhile p = l2.dropWhile p := by
  induction l1 with
  | nil => rfl
  | cons a t ih =>
      simp only [List.cons_append, List.dropWhile_cons, h a (by simp)]
      rw [ih fun a ha => h a (by simp [ha])]
      simp

/-- decDigits always produces at least one digit byte. -/
theorem decDigits_ne_nil (n : Nat) : decDigits n ≠ [] := by
  rw [decDigits]
  split <;> simp

/-- Every byte of decDigits is an ASCII digit. -/
theorem decDigits_mem (n : Nat) : ∀ a ∈ decDigits n, 0x30 ≤ a ∧ a ≤ 0x39 := by
  induction n using Nat.strong_induction_on with
  | _ n ih =>
      intro a ha
      rw [decDigits] at ha
      by_cases h : n < 10
      · rw [if_pos h] at ha
        simp at ha
        omega
      · rw [if_neg h] at ha
        rcases List.mem_append.mp ha with h1 | h1
        · exact ih (n / 10) (Nat.div_lt_self (by omega) (by omega)) a h1
        · simp at h1
          have := Nat.mod_lt n (y := 10) (by omega)
          omega

/-- The digit-accumulation loop recovers n from its decimal digits. -/
theorem decDigits_foldl (n : Nat) : ∀ acc : Nat,
    (decDigits n).foldl (fun a c => if 0x30 ≤ c ∧ c ≤ 0x39 then a * 10 + (c - 0x30) else a) acc =
      acc * 10 ^ (decDigits n).length + n := by
  induction n using Nat.strong_induction_on with
  | _ n ih =>
      intro acc
      rw [decDigits]
      by_cases h : n < 10
      · rw [if_pos h]
        have hd : 0x30 ≤ 0x30 + n ∧ 0x30 + n ≤ 0x39 := by omega
        simp [hd]
      · rw [if_neg h]
        have hdiv := Nat.div_lt_self (n := n) (by omega) (by omega : 1 < 10)
        have hmod : n % 10 < 10 := Nat.mod_lt n (by omega)
        have hd : 0x30 ≤ 0x30 + n % 10 ∧ 0x30 + n % 10 ≤ 0x39 := by omega
        rw [List.foldl_append, ih (n / 10) hdiv acc]
        simp only [List.foldl_cons, List.foldl_nil, List.length_append, List.length_cons,
          List.length_nil, if_pos hd]
        have hpow : 10 ^ ((decDigits (n / 10)).length + (0 + 1)) =
            10 ^ (decDigits (n / 10)).length * 10 := by
          simp [Nat.pow_succ]
        rw [hpow]
        have hn : n / 10 * 10 + n % 10 = n := by
          have := Nat.div_add_mod n 10
          omega
        ring_nf
        omega

/-- digitsVal inverts the decimal encoding. -/
theorem digitsVal_decDigits (n : Nat) : digitsVal (decDigits n) = n := by
  have := decDigits_foldl n 0
  simpa [digitsVal] using this

end input

namespace input

/-- decodeModifier computes exactly the 3-bit mask of (n-1). -/
theorem decodeModifier_eq_modMask (n : Nat) (hn : 1 ≤ n) :
    decodeModifier n = modMask (n - 1) := by
  by_cases h : n ≤ 1
  · have : n = 1 := by omega
    subst this
    decide
  · have h1 : n - 1 &&& 1 = ((n - 1).testBit 0).toNat * 1 := by
      simpa using Nat.and_two_pow (n - 1) 0
    have h2 : n - 1 &&& 2 = ((n - 1).testBit 1).toNat * 2 := by
      simpa using Nat.and_two_pow (n - 1) 1
    have h4 : n - 1 &&& 4 = ((n - 1).testBit 2).toNat * 4 := by
      simpa using Nat.and_two_pow (n - 1) 2
    simp only [decodeModifier, if_neg h, modMask]
    cases hb0 : (n - 1).testBit 0 <;> cases hb1 : (n - 1).testBit 1 <;>
      cases hb2 : (n - 1).testBit 2 <;>
      simp [h1, h2, h4, hb0, hb1, hb2] <;> decide

/-- parseCSI on a well-formed sequence `ESC [ params final`, with every
parameter byte in the parameter range and the final byte at 0x40 or above,
scans past exactly the parameters and dispatches on the final byte. -/
theorem parseCSI_shape (ps : List Nat) (f : Nat)
    (hps : ∀ a ∈ ps, 0x30 ≤ a ∧ a ≤ 0x3f) (hf : 0x40 ≤ f) :
    parseCSI (0x1b :: 0x5b :: (ps ++ [f])) = csiDispatch ps (2 + ps.length) f := by
  have hlen : ¬ (0x1b :: 0x5b :: (ps ++ [f])).length < 3 := by
    simp [List.length_append]
  have hfp : (fun b => decide (0x30 ≤ b ∧ b ≤ 0x3f)) f = false := by
    simp only [decide_eq_false_iff_not]
    omega
  have hfq : (fun b => decide (0x20 ≤ b ∧ b ≤ 0x2f)) f = false := by
    simp only [decide_eq_false_iff_not]
    omega
  have hall : ∀ a ∈ ps, (fun b => decide (0x30 ≤ b ∧ b ≤ 0x3f)) a = true := by
    intro a ha
    simpa using hps a ha
  unfold parseCSI
  rw [if_neg hlen]
  simp only [List.drop_succ_cons, List.drop_zero]
  rw [takeWhile_append_of_all _ ps [f] hall, dropWhile_append_of_all _ ps [f] hall]
  simp only [List.takeWhile_cons, hfp, List.dropWhile_cons, Bool.false_eq_true, if_false,
    List.takeWhile_nil, List.dropWhile_nil, hfq, List.append_nil, List.length_append,
    List.length_nil, Nat.add_zero]

end input

namespace input

/-- The modifier scan of a parameter list `1;<digits>` finds the semicolon
and decodes the digits as the 3-bit mask of (n-1). -/
theorem parseCSIModifier_digits (n : Nat) (hn : 1 ≤ n) :
    parseCSIModifier (0x31 :: 0x3b :: decDigits n) = modMask (n - 1) := by
  rw [parseCSIModifier, if_neg (by simp), parseCSIModifier,
    if_pos ⟨rfl, decDigits_ne_nil n⟩, digitsVal_decDigits, decodeModifier_eq_modMask n hn]

/-- C5: the six bytes `ESC [ 1 ; 5 A` decode to Ctrl+Up consuming all six
bytes, and in general a CSI sequence `ESC [ 1 ; n <final>` with a
modifier-carrying final byte (arrows, Home, End) decodes its modifier as
the 3-bit mask of (n-1) (bit0 Shift, bit1 Alt, bit2 Ctrl), consuming the
whole sequence. -/
theorem csi_modifier_decoding :
    parseSequence [0x1b, 0x5b, 0x31, 0x3b, 0x35, 0x41] = (some (.key KeyUp 0 ModCtrl), 6) ∧
      ∀ n fb : Nat, 1 ≤ n → fb ∈ [0x41, 0x42, 0x43, 0x44, 0x48, 0x46] →
        parseCSI ([0x1b, 0x5b, 0x31, 0x3b] ++ decDigits n ++ [fb]) =
          (some (.key (csiFinalKey fb) 0 (modMask (n - 1))), 4 + (decDigits n).length + 1) := by
  constructor
  · simp [parseSequence, parseEscape]
    decide
  · intro n fb hn hfb
    have hps : ∀ a ∈ (0x31 :: 0x3b :: decDigits n), 0x30 ≤ a ∧ a ≤ 0x3f := by
      intro a ha
      rcases List.mem_cons.mp ha with h | h
      · omega
      · rcases List.mem_cons.mp h with h | h
        · omega
        · have := decDigits_mem n a h
          omega
    have hfb6 : fb = 0x41 ∨ fb = 0x42 ∨ fb = 0x43 ∨ fb = 0x44 ∨ fb = 0x48 ∨ fb = 0x46 := by
      simpa using hfb
    have hf40 : 0x40 ≤ fb := by omega
    have hshape := parseCSI_shape (0x31 :: 0x3b :: decDigits n) fb hps hf40
    have hmod := parseCSIModifier_digits n hn
    simp only [List.cons_append, List.nil_append] at hshape ⊢
    rw [hshape]
    rcases hfb6 with h | h | h | h | h | h <;> subst h <;>
      simp [csiDispatch, csiFinalKey, hmod, List.length_cons] <;> omega

end input

namespace input

/-- Witness for C5 at n = 5 (Ctrl) and final byte 'A' (Up): the exact
six-byte example of the claim. -/
theorem csi_modifier_decoding_witness :
    ((1 : Nat) ≤ 5 ∧ (0x41 : Nat) ∈ [0x41, 0x42, 0x43, 0x44, 0x48, 0x46]) ∧
      parseCSI ([0x1b, 0x5b, 0x31, 0x3b] ++ decDigits 5 ++ [0x41]) =
        (some (.key (csiFinalKey 0x41) 0 (modMask 4)), 4 + (decDigits 5).length + 1) :=
  ⟨⟨by decide, by decide⟩, by
    have h := csi_modifier_decoding.2 5 0x41 (by decide) (by decide)
    simpa using h⟩

/-- C7: a lone ESC byte decodes to the Escape key consuming exactly one
byte, and CSI or SS3 sequences whose final byte is not in the recognized
set fall back to the Escape key instead of an error. -/
theorem escape_fallback :
    parseSequence [0x1b] = (some (.key KeyEscape 0 ModNone), 1) ∧
      (∀ ps f, (∀ a ∈ ps, 0x30 ≤ a ∧ a ≤ 0x3f) → 0x40 ≤ f →
        f ∉ [0x41, 0x42, 0x43, 0x44, 0x48, 0x46, 0x7e, 0x5a, 0x50, 0x51, 0x52, 0x53] →
        parseCSI (0x1b :: 0x5b :: (ps ++ [f])) = (some (.key KeyEscape 0 ModNone), 1)) ∧
      (∀ c, c ∉ [0x41, 0x42, 0x43, 0x44, 0x48, 0x46, 0x50, 0x51, 0x52, 0x53] →
        parseSS3 [0x1b, 0x4f, c] = (some (.key KeyEscape 0 ModNone), 1)) := by
  refine ⟨by simp [parseSequence, parseEscape], ?_, ?_⟩
  · intro ps f hps hf hnot
    rw [parseCSI_shape ps f hps hf]
    simp only [List.mem_cons, List.not_mem_nil, or_false, not_or] at hnot
    obtain ⟨n1, n2, n3, n4, n5, n6, n7, n8, n9, n10, n11, n12⟩ := hnot
    have hr : ¬(0x50 ≤ f ∧ f ≤ 0x53) := by omega
    simp [csiDispatch, n1, n2, n3, n4, n5, n6, n7, n8, hr]
  · intro c hnot
    simp only [List.mem_cons, List.not_mem_nil, or_false, not_or] at hnot
    obtain ⟨n1, n2, n3, n4, n5, n6, n7, n8, n9, n10⟩ := hnot
    simp [parseSS3, n1, n2, n3, n4, n5, n6, n7, n8, n9, n10]

/-- Witness for C7: the unrecognized CSI final byte 'E' after an empty
parameter list falls back to Escape. -/
theorem escape_fallback_witness :
    ((0x40 : Nat) ≤ 0x45 ∧
        (0x45 : Nat) ∉ [0x41, 0x42, 0x43, 0x44, 0x48, 0x46, 0x7e, 0x5a, 0x50, 0x51, 0x52, 0x53]) ∧
      parseCSI (0x1b :: 0x5b :: (([] : List Nat) ++ [0x45])) =
        (some (.key KeyEscape 0 ModNone), 1) :=
  ⟨⟨by decide, by decide⟩,
   escape_fallback.2.1 [] 0x45 (by intro a ha; exact absurd ha (List.not_mem_nil a))
     (by decide) (by decide)⟩

end input

namespace input

/-- The masking arithmetic of the two-byte UTF-8 branch agrees with the
standard decode formula on well-formed two-byte sequences. -/
theorem utf8_two_byte_arith (b b1 : Nat) (hb2 : 0xC2 ≤ b) (hbe : b < 0xE0)
    (h80 : 0x80 ≤ b1) (hc0 : b1 < 0xC0) :
    (b &&& 0x1f) <<< 6 ||| (b1 &&& 0x3f) = (b - 0xC0) * 64 + (b1 - 0x80) := by
  have hb : b &&& 31 = b % 32 := by
    have h := Nat.and_pow_two_sub_one_eq_mod b 5
    norm_num at h
    exact h
  have hb1 : b1 &&& 63 = b1 % 64 := by
    have h := Nat.and_pow_two_sub_one_eq_mod b1 6
    norm_num at h
    exact h
  have hbm : b % 32 = b - 0xC0 := by omega
  have hb1m : b1 % 64 = b1 - 0x80 := by omega
  have hor := Nat.mul_add_lt_is_or (show b1 - 0x80 < 2 ^ 6 by omega) (b - 0xC0)
  rw [hb, hb1, hbm, hb1m, Nat.shiftLeft_eq, mul_comm, ← hor]

/-- C6: the decoder takes the UTF-8 length from the leading byte and, when
that many bytes are available, consumes exactly that many, decoding the code
point (concretely, 0xC3 0xA9 gives the rune 0xE9 consuming 2 bytes, and any
well-formed two-byte sequence gives the standard decode value); when fewer
bytes are available it emits the leading byte alone as a one-byte rune,
consuming exactly one byte. -/
theorem utf8_decoding :
    parseSequence [0xC3, 0xA9] = (some (.key KeyRune 0xE9 ModNone), 2) ∧
      (∀ b rest, 32 ≤ b → b ≠ 127 → (b :: rest : List Nat).length < utf8Len b →
        parseSequence (b :: rest) = (some (.key KeyRune b ModNone), 1)) ∧
      (∀ b rest, 32 ≤ b → b ≠ 127 → utf8Len b ≤ (b :: rest : List Nat).length →
        (parseSequence (b :: rest)).2 = utf8Len b) ∧
      (∀ b b1 rest, 0xC2 ≤ b → b < 0xE0 → 0x80 ≤ b1 → b1 < 0xC0 →
        parseRune (b :: b1 :: rest) =
          (some (.key KeyRune ((b - 0xC0) * 64 + (b1 - 0x80)) ModNone), 2)) := by
  refine ⟨?_, ?_, ?_, ?_⟩
  · simp [parseSequence, parseRune, utf8Len]
    decide
  · intro b rest h32 h127 hshort
    rw [parseSequence, if_neg (by omega), if_neg (by omega), if_neg h127, parseRune,
      if_pos hshort]
  · intro b rest h32 h127 hlong
    rw [parseSequence, if_neg (by omega), if_neg (by omega), if_neg h127, parseRune,
      if_neg (by omega)]
  · intro b b1 rest hb2 hbe h80 hc0
    have hl : utf8Len b = 2 := by
      unfold utf8Len
      rw [if_neg (by omega), if_pos (by omega)]
    rw [parseRune, hl, if_neg (by simp), if_neg (by omega), if_pos rfl]
    simp [utf8_two_byte_arith b b1 hb2 hbe h80 hc0]

/-- Witness for C6: a truncated two-byte sequence (lone 0xC3) decodes to a
one-byte rune consuming one byte, and the full sequence 0xC3 0xA9 decodes
via the standard two-byte formula. -/
theorem utf8_decoding_witness :
    ((32 : Nat) ≤ 0xC3 ∧ (0xC3 : Nat) ≠ 127 ∧ ([0xC3] : List Nat).length < utf8Len 0xC3 ∧
        (0xC2 : Nat) ≤ 0xC3 ∧ (0xC3 : Nat) < 0xE0 ∧ (0x80 : Nat) ≤ 0xA9 ∧ (0xA9 : Nat) < 0xC0) ∧
      parseSequence [0xC3] = (some (.key KeyRune 0xC3 ModNone), 1) ∧
      parseRune [0xC3, 0xA9] =
        (some (.key KeyRune ((0xC3 - 0xC0) * 64 + (0xA9 - 0x80)) ModNone), 2) :=
  ⟨by decide,
   utf8_decoding.2.1 0xC3 [] (by decide) (by decide) (by decide),
   utf8_decoding.2.2.2 0xC3 0xA9 [] (by decide) (by decide) (by decide) (by decide)⟩

end input

namespace input

/-- Every branch of the CSI final-byte switch consumes at most i + 1 bytes. -/
theorem csiDispatch_le (params : List Nat) (i fb : Nat) :
    (csiDispatch params i fb).2 ≤ i + 1 := by
  unfold csiDispatch
  split_ifs <;> simp

/-- parseCSI never claims more bytes than the buffer holds. -/
theorem parseCSI_le (data : List Nat) (h : 1 ≤ data.length) :
    (parseCSI data).2 ≤ data.length := by
  rcases Nat.lt_or_ge data.length 3 with hlt | hge
  · simp only [parseCSI, if_pos hlt]
    exact h
  · simp only [parseCSI, if_neg (by omega : ¬data.length < 3)]
    have h1 := congrArg List.length
      (List.takeWhile_append_dropWhile (p := fun b => decide (0x30 ≤ b ∧ b ≤ 0x3f))
        (l := data.drop 2))
    rw [List.length_append] at h1
    have h2 := congrArg List.length
      (List.takeWhile_append_dropWhile (p := fun b => decide (0x20 ≤ b ∧ b ≤ 0x2f))
        (l := (data.drop 2).dropWhile fun b => decide (0x30 ≤ b ∧ b ≤ 0x3f)))
    rw [List.length_append] at h2
    have hd : (data.drop 2).length = data.length - 2 := List.length_drop 2 data
    split
    · omega
    · rename_i finalByte tail heq
      have hlen2 := congrArg List.length heq
      simp only [List.length_cons] at hlen2
      have hb := csiDispatch_le
        (((data.drop 2).takeWhile fun b => decide (0x30 ≤ b ∧ b ≤ 0x3f)) ++
          (((data.drop 2).dropWhile fun b => decide (0x30 ≤ b ∧ b ≤ 0x3f)).takeWhile
            fun b => decide (0x20 ≤ b ∧ b ≤ 0x2f)))
        (2 + ((data.drop 2).takeWhile fun b => decide (0x30 ≤ b ∧ b ≤ 0x3f)).length +
          (((data.drop 2).dropWhile fun b => decide (0x30 ≤ b ∧ b ≤ 0x3f)).takeWhile
            fun b => decide (0x20 ≤ b ∧ b ≤ 0x2f)).length)
        finalByte
      omega

/-- parseSS3 never claims more bytes than the buffer holds. -/
theorem parseSS3_le (data : List Nat) (h : 1 ≤ data.length) :
    (parseSS3 data).2 ≤ data.length := by
  rcases Nat.lt_or_ge data.length 3 with hlt | hge
  · simp only [parseSS3, if_pos hlt]
    exact h
  · simp only [parseSS3, if_neg (by omega : ¬data.length < 3)]
    split_ifs <;> omega

/-- parseRune never claims more bytes than the buffer holds. -/
theorem parseRune_le (data : List Nat) (h : 1 ≤ data.length) :
    (parseRune data).2 ≤ data.length := by
  match data with
  | [] => simp at h
  | b :: rest =>
      rw [parseRune]
      by_cases h1 : (b :: rest : List Nat).length < utf8Len b
      · rw [if_pos h1]
        simp
      · rw [if_neg h1]
        exact Nat.le_of_not_lt h1

/-- Both parse entry points never claim more bytes than the buffer holds. -/
theorem parseSequence_escape_le : ∀ N, ∀ data : List Nat, data.length ≤ N → data ≠ [] →
    (parseSequence data).2 ≤ data.length ∧ (parseEscape data).2 ≤ data.length := by
  intro N
  induction N with
  | zero =>
      intro data hlen hne
      cases data with
      | nil => exact absurd rfl hne
      | cons b rest => simp at hlen
  | succ N ih =>
      intro data hlen hne
      cases data with
      | nil => exact absurd rfl hne
      | cons b rest =>
          have hesc : (parseEscape (b :: rest)).2 ≤ (b :: rest : List Nat).length := by
            cases rest with
            | nil => simp [parseEscape]
            | cons b2 rest2 =>
                rw [parseEscape]
                by_cases hb1 : b2 = 0x5b
                · rw [if_pos hb1]
                  exact parseCSI_le _ (by simp)
                · rw [if_neg hb1]
                  by_cases hb2 : b2 = 0x4f
                  · rw [if_pos hb2]
                    exact parseSS3_le _ (by simp)
                  · rw [if_neg hb2]
                    have hrec := (ih (b2 :: rest2)
                      (by simp only [List.length_cons] at hlen ⊢; omega) (by simp)).1
                    rcases hps : parseSequence (b2 :: rest2) with ⟨ev, c⟩
                    rw [hps] at hrec
                    rcases ev with _ | ⟨k, r, m⟩ <;> exact Nat.succ_le_succ hrec
          refine ⟨?_, hesc⟩
          rw [parseSequence]
          by_cases h27 : b = 0x1b
          · rw [if_pos h27]
            exact hesc
          · rw [if_neg h27]
            by_cases hctl : b < 32
            · rw [if_pos hctl]
              simp
            · rw [if_neg hctl]
              by_cases h127 : b = 127
              · rw [if_pos h127]
                simp
              · rw [if_neg h127]
                exact parseRune_le _ (by simp)

end input

namespace input

/-- Unfolding of one iteration of the instrumented parse loop. -/
theorem parseConsumedCounts_cons (b : Nat) (rest : List Nat) :
    parseConsumedCounts (b :: rest) =
      (if (parseSequence (b :: rest)).2 = 0 then 1 else (parseSequence (b :: rest)).2) ::
        parseConsumedCounts ((b :: rest).drop
          (if (parseSequence (b :: rest)).2 = 0 then 1 else (parseSequence (b :: rest)).2)) := by
  rw [parseConsumedCounts]

/-- C10: the decoder loop runs at most one iteration per buffer byte and the
per-iteration consumed counts are all at least one (a zero consumed-count is
forced to one before the buffer is advanced) and sum to exactly the buffer
length, so every byte is consumed exactly once. -/
theorem parse_loop_consumes_all (data : List Nat) :
    (parseConsumedCounts data).sum = data.length ∧
      (parseConsumedCounts data).length ≤ data.length ∧
      ∀ i, 1 ≤ (parseConsumedCounts data).getD i 1 := by
  suffices H : ∀ N, ∀ data : List Nat, data.length ≤ N →
      (parseConsumedCounts data).sum = data.length ∧
        (parseConsumedCounts data).length ≤ data.length ∧
        ∀ i, 1 ≤ (parseConsumedCounts data).getD i 1 from H data.length data le_rfl
  intro N
  induction N with
  | zero =>
      intro data hlen
      have hnil : data = [] := List.eq_nil_of_length_eq_zero (by omega)
      subst hnil
      rw [parseConsumedCounts]
      refine ⟨rfl, by simp, fun i => ?_⟩
      simp [List.getD]
  | succ N ih =>
      intro data hlen
      cases data with
      | nil =>
          rw [parseConsumedCounts]
          refine ⟨rfl, by simp, fun i => ?_⟩
          simp [List.getD]
      | cons b rest =>
          rw [parseConsumedCounts_cons]
          set c := if (parseSequence (b :: rest)).2 = 0 then 1 else (parseSequence (b :: rest)).2
            with hcdef
          have hc1 : 1 ≤ c := by
            rw [hcdef]
            split <;> omega
          have hc2 : c ≤ (b :: rest : List Nat).length := by
            rw [hcdef]
            split
            · simp
            · exact (parseSequence_escape_le (b :: rest).length (b :: rest) le_rfl (by simp)).1
          have hdrop : ((b :: rest).drop c).length = (b :: rest : List Nat).length - c :=
            List.length_drop c (b :: rest)
          have hih := ih ((b :: rest).drop c)
            (by
              rw [hdrop]
              simp only [List.length_cons] at hlen ⊢
              omega)
          refine ⟨?_, ?_, fun i => ?_⟩
          · rw [List.sum_cons, hih.1, hdrop]
            simp only [List.length_cons] at hc2 ⊢
            omega
          · have hlc := hih.2.1
            rw [hdrop] at hlc
            rw [List.length_cons]
            simp only [List.length_cons] at hlc hc2 ⊢
            omega
          · cases i with
            | zero => simpa using hc1
            | succ i => simpa using hih.2.2 i

end input

namespace screen

open terminal

/-- Membership in the render coordinate walk is exactly in-range (y, x). -/
theorem mem_coords (p : Nat × Nat) (h w : Nat) :
    p ∈ coords h w ↔ p.1 < h ∧ p.2 < w := by
  cases p with
  | mk y x =>
      constructor
      · intro hp
        rcases List.mem_flatten.mp hp with ⟨l, hl, hpl⟩
        rcases List.mem_map.mp hl with ⟨y2, hy2, rfl⟩
        rcases List.mem_map.mp hpl with ⟨x2, hx2, hpx⟩
        cases hpx
        exact ⟨List.mem_range.mp hy2, List.mem_range.mp hx2⟩
      · rintro ⟨hy, hx⟩
        refine List.mem_flatten.mpr ⟨(List.range w).map fun x2 => (y, x2), ?_, ?_⟩
        · exact List.mem_map.mpr ⟨y, List.mem_range.mpr hy, rfl⟩
        · exact List.mem_map.mpr ⟨x, List.mem_range.mpr hx, rfl⟩

/-- The render coordinate walk visits each cell exactly once. -/
theorem nodup_coords (h w : Nat) : (coords h w).Nodup := by
  rw [coords, List.nodup_flatten]
  constructor
  · intro l hl
    rcases List.mem_map.mp hl with ⟨y, hy, rfl⟩
    exact (List.nodup_range w).map fun a b hab => (Prod.mk.injEq .. ▸ hab).2
  · rw [List.pairwise_map]
    refine (List.pairwise_lt_range h).imp ?_
    rintro y1 y2 hlt p hp1 hp2
    rcases List.mem_map.mp hp1 with ⟨x1, _, rfl⟩
    rcases List.mem_map.mp hp2 with ⟨x2, _, hpx⟩
    have := (Prod.mk.injEq .. ▸ hpx).1
    omega

/-- A cell equal to its front counterpart is skipped by the render loop. -/
theorem renderCell_unchanged (flat front : Nat → Nat → Cell) (st : RenderSt) (p : Nat × Nat)
    (h : (flat p.1 p.2).Equals (front p.1 p.2) = true) :
    renderCell flat front st p = st := by
  simp [renderCell, h]

/-- A run of unchanged cells leaves the render loop state untouched. -/
theorem foldl_renderCell_unchanged (flat front : Nat → Nat → Cell) (l : List (Nat × Nat)) :
    ∀ st : RenderSt, (∀ p ∈ l, (flat p.1 p.2).Equals (front p.1 p.2) = true) →
      l.foldl (renderCell flat front) st = st := by
  induction l with
  | nil => intro st _; rfl
  | cons p t ih =>
      intro st h
      rw [List.foldl_cons, renderCell_unchanged flat front st p (h p (by simp))]
      exact ih st fun q hq => h q (by simp [hq])

/-- One render-loop step grows the output by at most a cursor move plus a
style sequence plus one character. -/
theorem renderCell_out_le (flat front : Nat → Nat → Cell) (st : RenderSt) (p : Nat × Nat) :
    (renderCell flat front st p).out.length ≤
      st.out.length + ((CursorMove ((p.2 : Int) + 1) ((p.1 : Int) + 1)).length +
        ((flat p.1 p.2).Style.Sequence).length + 1) := by
  simp only [renderCell]
  split
  · omega
  · split <;> split <;>
      simp [String.length_append] <;> omega

/-- The render loop emits at most B output characters per changed cell. -/
theorem foldl_renderCell_out_bound (flat front : Nat → Nat → Cell) (B : Nat)
    (l : List (Nat × Nat)) :
    ∀ st : RenderSt,
      (∀ p ∈ l, (CursorMove ((p.2 : Int) + 1) ((p.1 : Int) + 1)).length +
        ((flat p.1 p.2).Style.Sequence).length + 1 ≤ B) →
      (l.foldl (renderCell flat front) st).out.length ≤
        st.out.length + (l.countP fun p => !((flat p.1 p.2).Equals (front p.1 p.2))) * B := by
  induction l with
  | nil => intro st _; simp
  | cons p t ih =>
      intro st hB
      rw [List.foldl_cons, List.countP_cons]
      by_cases hc : (flat p.1 p.2).Equals (front p.1 p.2) = true
      · rw [renderCell_unchanged flat front st p hc]
        have := ih st fun q hq => hB q (by simp [hq])
        simp only [hc, Bool.not_true]
        simp only [if_neg (by simp : ¬(false = true)), Nat.add_zero]
        omega
      · have hstep := renderCell_out_le flat front st p
        have hcB := hB p (by simp)
        have hrest := ih (renderCell flat front st p) fun q hq => hB q (by simp [hq])
        have hcc : (!((flat p.1 p.2).Equals (front p.1 p.2))) = true := by
          simp [Bool.eq_false_iff.mpr hc]
        rw [if_pos hcc]
        have : (t.countP fun p => !((flat p.1 p.2).Equals (front p.1 p.2))) * B + B =
            ((t.countP fun p => !((flat p.1 p.2).Equals (front p.1 p.2))) + 1) * B := by
          ring
        omega

/-- The starting accumulator never exceeds a running fold of maxima. -/
theorem foldl_max_init_le {α : Type} (f : α → Nat) (l : List α) :
    ∀ a : Nat, a ≤ l.foldl (fun m q => max m (f q)) a := by
  induction l with
  | nil => intro a; simp
  | cons p t ih =>
      intro a
      rw [List.foldl_cons]
      exact le_trans (Nat.le_max_left a (f p)) (ih _)

/-- Every listed element is bounded by the fold of maxima over the list. -/
theorem le_foldl_max {α : Type} (f : α → Nat) (l : List α) :
    ∀ a : Nat, ∀ p ∈ l, f p ≤ l.foldl (fun m q => max m (f q)) a := by
  induction l with
  | nil => intro a p hp; simp at hp
  | cons q t ih =>
      intro a p hp
      rw [List.foldl_cons]
      rcases List.mem_cons.mp hp with rfl | hp2
      · exact le_trans (Nat.le_max_right a (f p)) (foldl_max_init_le f t _)
      · exact ih _ p hp2

end screen

namespace screen

open terminal

/-- C3: when the flattened back buffer equals the front image everywhere the
render pass emits the empty byte stream (so nothing is written); in general
the emitted output is bounded by the number of changed cells times the
worst per-cell emission plus its style reset, never by the screen area. -/
theorem render_diff_minimal (s : Screen) :
    ((∀ y, y < s.height → ∀ x, x < s.width → s.flatAt y x = s.front y x) →
        (s.render).1 = "") ∧
      (s.render).1.length ≤ s.changedCount * (s.maxCellEmit + 4) := by
  have hallB : ∀ p ∈ coords s.height s.width,
      (CursorMove ((p.2 : Int) + 1) ((p.1 : Int) + 1)).length +
        ((s.flatAt p.1 p.2).Style.Sequence).length + 1 ≤ s.maxCellEmit := by
    intro p hp
    exact le_foldl_max (cellEmit s) (coords s.height s.width) 0 p hp
  constructor
  · intro hall
    have hunch : ∀ p ∈ coords s.height s.width,
        (s.flatAt p.1 p.2).Equals (s.front p.1 p.2) = true := by
      intro p hp
      rcases (mem_coords p _ _).mp hp with ⟨h1, h2⟩
      exact (cell_equals_iff _ _).mpr (hall p.1 h1 p.2 h2)
    simp only [Screen.render]
    rw [foldl_renderCell_unchanged s.flatAt s.front _ renderInit hunch]
    rfl
  · by_cases hzero : (coords s.height s.width).countP
        (fun p => !((s.flatAt p.1 p.2).Equals (s.front p.1 p.2))) = 0
    · have hunch : ∀ p ∈ coords s.height s.width,
          (s.flatAt p.1 p.2).Equals (s.front p.1 p.2) = true := by
        intro p hp
        have := List.countP_eq_zero.mp hzero p hp
        simpa using this
      simp only [Screen.render]
      rw [foldl_renderCell_unchanged s.flatAt s.front _ renderInit hunch]
      show ("" : String).length ≤ _
      simp
    · have hbound := foldl_renderCell_out_bound s.flatAt s.front s.maxCellEmit
        (coords s.height s.width) renderInit hallB
      rw [show renderInit.out.length = 0 from rfl, Nat.zero_add] at hbound
      have hcnt1 : 1 ≤ (coords s.height s.width).countP
          (fun p => !((s.flatAt p.1 p.2).Equals (s.front p.1 p.2))) :=
        Nat.pos_of_ne_zero hzero
      have hsr : (StyleReset : String).length = 4 := by decide
      have hch : s.changedCount = (coords s.height s.width).countP
          (fun p => !((s.flatAt p.1 p.2).Equals (s.front p.1 p.2))) := rfl
      have hmul : s.changedCount * (s.maxCellEmit + 4) =
          s.changedCount * s.maxCellEmit + s.changedCount * 4 := Nat.mul_add ..
      simp only [Screen.render]
      rw [hmul, hch]
      cases hss : ((coords s.height s.width).foldl (renderCell s.flatAt s.front) renderInit).styleSet
      · simp only [hss, Bool.false_eq_true, if_false]
        omega
      · simp only [hss, if_true]
        rw [String.length_append, hsr]
        omega

end screen

namespace screen

open terminal

/-- Witness for C3: rendering the all-empty 1 by 1 screen emits nothing. -/
theorem render_diff_minimal_witness :
    (∀ y, y < scrEmpty.height → ∀ x, x < scrEmpty.width →
        scrEmpty.flatAt y x = scrEmpty.front y x) ∧
      (scrEmpty.render).1 = "" :=
  ⟨by decide, (render_diff_minimal scrEmpty).1 (by decide)⟩

/-- A getD read below the length ignores the default. -/
theorem getD_default_irrel {α : Type} (l : List α) (i : Nat) (h : i < l.length) (d1 d2 : α) :
    l.getD i d1 = l.getD i d2 := by
  rw [List.getD_eq_getElem _ _ h, List.getD_eq_getElem _ _ h]

/-- The flattened image has one row per buffer row. -/
theorem flatten_length (b : Buffer) : b.Flatten.length = b.height := by
  simp [Buffer.Flatten]

/-- Each flattened row has one cell per buffer column. -/
theorem flatten_row_length (b : Buffer) (y : Nat) (hy : y < b.height) :
    ((b.Flatten).getD y []).length = b.width := by
  simp [Buffer.Flatten, List.getD, List.getElem?_map, List.getElem?_range, hy]

/-- C2: when exactly one in-range cell differs between the flattened back
buffer and the front image, Render emits exactly one cursor move to that
cell, the cell's style sequence (a style always counts as changed at the
first emission of a frame), the cell's character and the closing style
reset; afterwards the front image equals the freshly flattened back buffer
at every in-range cell. -/
theorem render_single_change (s : Screen) (x0 y0 : Nat)
    (hw : s.back.width = s.width) (hh : s.back.height = s.height)
    (hx : x0 < s.width) (hy : y0 < s.height)
    (hdiff : s.flatAt y0 x0 ≠ s.front y0 x0)
    (huniq : ∀ y x, y < s.height → x < s.width → ¬(y = y0 ∧ x = x0) →
      s.flatAt y x = s.front y x) :
    (s.render).1 =
      CursorMove ((x0 : Int) + 1) ((y0 : Int) + 1) ++ (s.flatAt y0 x0).Style.Sequence ++
        String.singleton (s.flatAt y0 x0).Rune ++ StyleReset ∧
      ∀ y x, y < s.height → x < s.width → (s.render).2.front y x = s.flatAt y x := by
  have hmem : ((y0, x0) : Nat × Nat) ∈ coords s.height s.width :=
    (mem_coords _ _ _).mpr ⟨hy, hx⟩
  obtain ⟨l1, l2, hsplit⟩ := List.append_of_mem hmem
  have hnodup := nodup_coords s.height s.width
  rw [hsplit] at hnodup
  rcases List.nodup_append.mp hnodup with ⟨hn1, hn2, hdisj⟩
  have ha2 : ((y0, x0) : Nat × Nat) ∉ l2 := (List.nodup_cons.mp hn2).1
  have ha1 : ((y0, x0) : Nat × Nat) ∉ l1 := fun hmem1 => hdisj hmem1 (List.mem_cons_self _ _)
  have hunch : ∀ p : Nat × Nat, p ∈ coords s.height s.width → p ≠ (y0, x0) →
      (s.flatAt p.1 p.2).Equals (s.front p.1 p.2) = true := by
    intro p hp hne
    rcases (mem_coords p _ _).mp hp with ⟨h1, h2⟩
    refine (cell_equals_iff _ _).mpr (huniq p.1 p.2 h1 h2 ?_)
    rintro ⟨e1, e2⟩
    exact hne (Prod.ext e1 e2)
  have hul1 : ∀ p ∈ l1, (s.flatAt p.1 p.2).Equals (s.front p.1 p.2) = true := by
    intro p hp
    exact hunch p (by rw [hsplit]; exact List.mem_append_left _ hp)
      (fun he => ha1 (he ▸ hp))
  have hul2 : ∀ p ∈ l2, (s.flatAt p.1 p.2).Equals (s.front p.1 p.2) = true := by
    intro p hp
    exact hunch p
      (by rw [hsplit]; exact List.mem_append_right _ (List.mem_cons_of_mem _ hp))
      (fun he => ha2 (he ▸ hp))
  have hne : (s.flatAt y0 x0).Equals (s.front y0 x0) = false := by
    rw [Bool.eq_false_iff]
    intro hq
    exact hdiff ((cell_equals_iff _ _).mp hq)
  have hstep : renderCell s.flatAt s.front renderInit (y0, x0) =
      { out := CursorMove ((x0 : Int) + 1) ((y0 : Int) + 1) ++
          (s.flatAt y0 x0).Style.Sequence ++ String.singleton (s.flatAt y0 x0).Rune,
        lastStyle := (s.flatAt y0 x0).Style, styleSet := true,
        lastX := (x0 : Int), lastY := (y0 : Int) } := by
    simp only [renderCell, renderInit, hne, Bool.false_eq_true, if_false]
    split
    · split
      · rfl
      · rename_i hcond2
        exact absurd (Or.inl rfl) hcond2
    · rename_i hcond
      exfalso
      apply hcond
      right
      omega
  have hfold : (coords s.height s.width).foldl (renderCell s.flatAt s.front) renderInit =
      renderCell s.flatAt s.front renderInit (y0, x0) := by
    rw [hsplit, List.foldl_append, foldl_renderCell_unchanged s.flatAt s.front l1 renderInit hul1,
      List.foldl_cons, foldl_renderCell_unchanged s.flatAt s.front l2 _ hul2]
  constructor
  · simp only [Screen.render]
    rw [hfold, hstep]
    rfl
  · intro y x hy2 hx2
    simp only [Screen.render]
    show ((s.back.Flatten).getD y []).getD x (s.front y x) = s.flatAt y x
    have hrow : ((s.back.Flatten).getD y []).length = s.back.width :=
      flatten_row_length s.back y (by omega)
    exact getD_default_irrel _ x (by omega) _ _

end screen

namespace screen

open terminal

/-- Witness for C2: on a 1 by 1 screen whose single back-buffer cell holds
'a' over an empty front, Render emits one cursor move, the style sequence,
the character and the reset, and the front becomes the flattened image. -/
theorem render_single_change_witness :
    (scrOne.back.width = scrOne.width ∧ scrOne.back.height = scrOne.height ∧
        0 < scrOne.width ∧ 0 < scrOne.height ∧ scrOne.flatAt 0 0 ≠ scrOne.front 0 0) ∧
      (scrOne.render).1 =
        CursorMove ((0 : Int) + 1) ((0 : Int) + 1) ++ (scrOne.flatAt 0 0).Style.Sequence ++
          String.singleton (scrOne.flatAt 0 0).Rune ++ StyleReset ∧
      ∀ y x, y < scrOne.height → x < scrOne.width →
        (scrOne.render).2.front y x = scrOne.flatAt y x :=
  ⟨⟨by decide, by decide, by decide, by decide, by decide⟩,
   render_single_change scrOne 0 0 (by decide) (by decide) (by decide) (by decide) (by decide)
     (by
       intro y x hy2 hx2 hnot
       rw [show scrOne.height = 1 from rfl] at hy2
       rw [show scrOne.width = 1 from rfl] at hx2
       exact absurd ⟨by omega, by omega⟩ hnot)⟩

end screen
